import Mathlib

/-!
Verification of the zenconf merged-config core (`zenconf/merged_config.py`):
a shallow embedding of `walk_recursive`, `dict_merge` and the `MergedConfig`
facade, together with theorems checking the natural-language specification.

Python values are modelled by the nested inductive type `Value`
(scalars, lists, ordered dicts as association lists).  Python's
insertion-ordered dict assignment `d[k] = v` is modelled by `dinsert`
(update in place if the key exists, else append), and `d[k]` by `dlookup`.
`deepcopy` is the identity on immutable values.  A Python `TypeError`
raised by `dict_merge` is modelled by `Option.none`; the Python value
`None` is the `Value.vnone` constructor.
-/

/-- A Python value as handled by the library: scalars (strings, ints,
booleans, `None`), lists and (ordered) dicts with string keys. -/
inductive Value where
  | vstr  : String → Value
  | vint  : Int → Value
  | vbool : Bool → Value
  | vnone : Value
  | vlist : List Value → Value
  | vdict : List (String × Value) → Value

mutual

/-- Structural boolean equality on `Value`. -/
def beqV : Value → Value → Bool
  | .vstr a,  .vstr b  => a = b
  | .vint a,  .vint b  => a = b
  | .vbool a, .vbool b => a = b
  | .vnone,   .vnone   => true
  | .vlist a, .vlist b => beqL a b
  | .vdict a, .vdict b => beqD a b
  | _, _ => false

/-- Structural boolean equality on lists of `Value`. -/
def beqL : List Value → List Value → Bool
  | [], [] => true
  | x :: xs, y :: ys => beqV x y && beqL xs ys
  | _, _ => false

/-- Structural boolean equality on association lists of `Value`. -/
def beqD : List (String × Value) → List (String × Value) → Bool
  | [], [] => true
  | (k, v) :: xs, (k', v') :: ys => k = k' && beqV v v' && beqD xs ys
  | _, _ => false

end

mutual

theorem beqV_iff : ∀ a b : Value, beqV a b = true ↔ a = b
  | .vstr a,  .vstr b  => by simp [beqV]
  | .vint a,  .vint b  => by simp [beqV]
  | .vbool a, .vbool b => by simp [beqV]
  | .vnone,   .vnone   => by simp [beqV]
  | .vlist a, .vlist b => by simp [beqV, beqL_iff a b]
  | .vdict a, .vdict b => by simp [beqV, beqD_iff a b]
  | .vstr _,  .vint _  => by simp [beqV]
  | .vstr _,  .vbool _ => by simp [beqV]
  | .vstr _,  .vnone   => by simp [beqV]
  | .vstr _,  .vlist _ => by simp [beqV]
  | .vstr _,  .vdict _ => by simp [beqV]
  | .vint _,  .vstr _  => by simp [beqV]
  | .vint _,  .vbool _ => by simp [beqV]
  | .vint _,  .vnone   => by simp [beqV]
  | .vint _,  .vlist _ => by simp [beqV]
  | .vint _,  .vdict _ => by simp [beqV]
  | .vbool _, .vstr _  => by simp [beqV]
  | .vbool _, .vint _  => by simp [beqV]
  | .vbool _, .vnone   => by simp [beqV]
  | .vbool _, .vlist _ => by simp [beqV]
  | .vbool _, .vdict _ => by simp [beqV]
  | .vnone,   .vstr _  => by simp [beqV]
  | .vnone,   .vint _  => by simp [beqV]
  | .vnone,   .vbool _ => by simp [beqV]
  | .vnone,   .vlist _ => by simp [beqV]
  | .vnone,   .vdict _ => by simp [beqV]
  | .vlist _, .vstr _  => by simp [beqV]
  | .vlist _, .vint _  => by simp [beqV]
  | .vlist _, .vbool _ => by simp [beqV]
  | .vlist _, .vnone   => by simp [beqV]
  | .vlist _, .vdict _ => by simp [beqV]
  | .vdict _, .vstr _  => by simp [beqV]
  | .vdict _, .vint _  => by simp [beqV]
  | .vdict _, .vbool _ => by simp [beqV]
  | .vdict _, .vnone   => by simp [beqV]
  | .vdict _, .vlist _ => by simp [beqV]

theorem beqL_iff : ∀ a b : List Value, beqL a b = true ↔ a = b
  | [], [] => by simp [beqL]
  | x :: xs, y :: ys => by simp [beqL, beqV_iff x y, beqL_iff xs ys]
  | [], _ :: _ => by simp [beqL]
  | _ :: _, [] => by simp [beqL]

theorem beqD_iff : ∀ a b : List (String × Value), beqD a b = true ↔ a = b
  | [], [] => by simp [beqD]
  | (k, v) :: xs, (k', v') :: ys => by
      simp [beqD, beqV_iff v v', beqD_iff xs ys, and_assoc]
  | [], _ :: _ => by simp [beqD]
  | _ :: _, [] => by simp [beqD]

end

instance : DecidableEq Value := fun a b =>
  decidable_of_iff (beqV a b = true) (beqV_iff a b)

/-- Python truthiness (`bool(v)`). -/
def truthy : Value → Bool
  | .vstr s  => !(s == "")
  | .vint n  => n != 0
  | .vbool b => b
  | .vnone   => false
  | .vlist l => !l.isEmpty
  | .vdict l => !l.isEmpty

/-- `True` on the non-container constructors (not a dict, not a list). -/
def isScalar : Value → Bool
  | .vlist _ => false
  | .vdict _ => false
  | _        => true

/-- `isinstance(v, dict)`. -/
def isDict : Value → Bool
  | .vdict _ => true
  | _        => false

/-- Ordered-dict assignment `d[k] = v`: replace the value in place if the
key is present, keeping its position, otherwise append the pair. -/
def dinsert (l : List (String × Value)) (k : String) (v : Value) :
    List (String × Value) :=
  match l with
  | [] => [(k, v)]
  | (k', v') :: rest =>
      if k' = k then (k', v) :: rest else (k', v') :: dinsert rest k v

/-- Ordered-dict access `d[k]` (first matching key). -/
def dlookup (l : List (String × Value)) (k : String) : Option Value :=
  match l with
  | [] => none
  | (k', v) :: rest => if k' = k then some v else dlookup rest k

example : dinsert [("a", .vint 1), ("b", .vint 2)] "a" (.vint 3)
    = [("a", .vint 3), ("b", .vint 2)] := by decide

example : dlookup [("a", .vint 1), ("b", .vint 2)] "b" = some (.vint 2) := by
  decide

/-- `funcy.walk_keys(f, data)`: rebuild the ordered dict with every key `k`
replaced by `f k` (values untouched); on key collisions the later pair's
value wins while the earlier insertion position is kept. -/
def walkKeysRaw (f : String → String) (l : List (String × Value)) :
    List (String × Value) :=
  l.foldl (fun acc p => dinsert acc (f p.1) p.2) []

mutual

/-- `walk_recursive(f, data)` from `zenconf/merged_config.py`:

* on a list, map `walk_recursive` over the elements;
* on a dict, first rebuild it with `funcy.walk_keys` (raw values), then for
  every pair whose value is a dict or a list, overwrite the entry at the
  transformed key with the recursively walked value;
* otherwise (a scalar) return `f(data)`.

The scalar case applies the Python function `f` to the scalar itself; we
model string scalars (the domain of the key function).  Applying the
string function to a non-string scalar would raise in Python, and such
scalars are kept unchanged here. -/
def walkValue (f : String → String) : Value → Value
  | .vstr s  => .vstr (f s)
  | .vint n  => .vint n
  | .vbool b => .vbool b
  | .vnone   => .vnone
  | .vlist l => .vlist (walkList f l)
  | .vdict l => .vdict (walkPass f l (walkKeysRaw f l))

/-- Elementwise `walk_recursive` over a Python list. -/
def walkList (f : String → String) : List Value → List Value
  | [] => []
  | v :: vs => walkValue f v :: walkList f vs

/-- The `for k, v in data.iteritems()` loop of `walk_recursive`'s dict
branch: starting from the `walk_keys` result `acc`, overwrite the entry at
`f k` with the walked value for every dict- or list-valued pair. -/
def walkPass (f : String → String) :
    List (String × Value) → List (String × Value) → List (String × Value)
  | [], acc => acc
  | (k, .vdict l') :: rest, acc =>
      walkPass f rest
        (dinsert acc (f k) (.vdict (walkPass f l' (walkKeysRaw f l'))))
  | (k, .vlist xs) :: rest, acc =>
      walkPass f rest (dinsert acc (f k) (.vlist (walkList f xs)))
  | (_, .vstr _) :: rest, acc => walkPass f rest acc
  | (_, .vint _) :: rest, acc => walkPass f rest acc
  | (_, .vbool _) :: rest, acc => walkPass f rest acc
  | (_, .vnone) :: rest, acc => walkPass f rest acc

end

example :
    walkValue (fun s => s ++ "!") (.vdict [("a", .vlist [.vstr "x"])])
      = .vdict [("a!", .vlist [.vstr "x!"])] := by decide

example :
    walkValue (fun s => s ++ "!")
        (.vdict [("a", .vint 1), ("b", .vdict [("c", .vstr "s")])])
      = .vdict [("a!", .vint 1), ("b!", .vdict [("c!", .vstr "s")])] := by
  decide

/-- The characters of a string (`String.data`), the representation all
string reasoning below is done on. -/
def chars (s : String) : List Char := s.data

/-- Rebuild a string from its characters. -/
def strOfChars (cs : List Char) : String := ⟨cs⟩

/-- Character-level worker for Python's `str.split(sep)` with a non-empty
separator: scan left to right, cut at each non-overlapping occurrence of
`sep`, keeping empty pieces.  `skip` counts characters still to be consumed
by the separator occurrence that was just matched; `acc` holds the current
piece in reverse. -/
def splitAux (sep : List Char) :
    List Char → Nat → List Char → List (List Char)
  | [], _, acc => [acc.reverse]
  | _ :: rest, skip + 1, acc => splitAux sep rest skip acc
  | c :: rest, 0, acc =>
      if sep.isPrefixOf (c :: rest) then
        acc.reverse :: splitAux sep rest (sep.length - 1) []
      else
        splitAux sep rest 0 (c :: acc)

/-- Python's `key.split(dict_boundary)`.  Python raises `ValueError` on an
empty separator; the library always passes the configured non-empty
boundary (default `"__"`), and we return `[s]` for the empty separator so
that such a key is never treated as a path key. -/
def pySplit (sep s : String) : List String :=
  if chars sep = [] then [s]
  else (splitAux (chars sep) (chars s) 0 []).map strOfChars

example : pySplit "__" "a__b__c" = ["a", "b", "c"] := by decide
example : pySplit "__" "__a" = ["", "a"] := by decide
example : pySplit "__" "a__" = ["a", ""] := by decide
example : pySplit "__" "__" = ["", ""] := by decide
example : pySplit "__" "a" = ["a"] := by decide
example : pySplit "__" "____" = ["", "", ""] := by decide

theorem splitAux_length_pos (sep : List Char) :
    ∀ (l : List Char) (skip : Nat) (acc : List Char),
      0 < (splitAux sep l skip acc).length := by
  intro l
  induction l with
  | nil => intro skip acc; simp [splitAux]
  | cons c rest ih =>
      intro skip acc
      match skip with
      | skip + 1 => simpa [splitAux] using ih skip acc
      | 0 =>
          by_cases h : sep.isPrefixOf (c :: rest) <;>
            simp [splitAux, h, ih]

theorem isPrefixOf_length_le :
    ∀ (a b : List Char), a.isPrefixOf b = true → a.length ≤ b.length := by
  intro a
  induction a with
  | nil => intro b _; simp
  | cons x xs ih =>
      intro b h
      cases b with
      | nil => simp [List.isPrefixOf] at h
      | cons y ys =>
          simp only [List.isPrefixOf, Bool.and_eq_true] at h
          have := ih ys h.2
          simp only [List.length_cons]
          omega

/-- Character accounting for `splitAux`: the pieces plus the consumed
separators never exceed the input (plus the accumulator). -/
theorem splitAux_sum (sep : List Char) :
    ∀ (l : List Char) (skip : Nat) (acc : List Char),
      ((splitAux sep l skip acc).map List.length).sum
          + ((splitAux sep l skip acc).length - 1) * sep.length
        ≤ acc.length + (l.length - min skip l.length) := by
  intro l
  induction l with
  | nil => intro skip acc; simp [splitAux]
  | cons c rest ih =>
      intro skip acc
      match skip with
      | skip + 1 =>
          have h := ih skip acc
          simp only [splitAux]
          calc ((splitAux sep rest skip acc).map List.length).sum
                + ((splitAux sep rest skip acc).length - 1) * sep.length
              ≤ acc.length + (rest.length - min skip rest.length) := h
            _ ≤ acc.length
                + ((c :: rest).length - min (skip + 1) (c :: rest).length) := by
                simp only [List.length_cons]
                omega
      | 0 =>
          by_cases h : sep.isPrefixOf (c :: rest)
          · have hsep : sep.length ≤ (c :: rest).length :=
              isPrefixOf_length_le _ _ h
            have hrec := ih (sep.length - 1) []
            have hpos := splitAux_length_pos sep rest (sep.length - 1) []
            have hmin : min (sep.length - 1) rest.length = sep.length - 1 := by
              simp only [List.length_cons] at hsep; omega
            rw [hmin] at hrec
            simp only [List.length_nil, Nat.zero_add] at hrec
            simp only [splitAux, if_pos h, List.map_cons, List.sum_cons,
              List.length_cons, List.length_reverse, Nat.zero_min,
              Nat.sub_zero, Nat.add_sub_cancel]
            set n := (splitAux sep rest (sep.length - 1) []).length with hn
            have hmn : n = (n - 1) + 1 := by omega
            have hmul : n * sep.length = (n - 1) * sep.length + sep.length := by
              conv_lhs => rw [hmn]
              rw [Nat.succ_mul]
            omega
          · have hrec := ih 0 (c :: acc)
            simp only [splitAux, if_neg h]
            simp only [List.length_cons] at hrec ⊢
            omega

mutual

/-- Merge-termination measure on values: twice the total length of all
dict keys plus one per pair, at every nesting depth. -/
def msizeV : Value → Nat
  | .vdict l => msizeD l
  | _ => 0

/-- Merge-termination measure on association lists. -/
def msizeD : List (String × Value) → Nat
  | [] => 0
  | (k, v) :: rest => 2 * (chars k).length + 1 + msizeV v + msizeD rest

end

/-- The `for key in reversed(exploded_k)` loop of `dict_merge`: wrap the
value `v` into a nested single-branch dict, skipping empty segments;
`nd` is the Python variable `new_dict`, initially `None` (`vnone`). -/
def wrapLoop (v : Value) : List String → Value → Value
  | [], nd => nd
  | s :: rest, nd =>
      if s == "" then wrapLoop v rest nd
      else if truthy nd then wrapLoop v rest (.vdict [(s, nd)])
      else wrapLoop v rest (.vdict [(s, v)])

example :
    wrapLoop (.vint 1) ["c", "b", "a"] .vnone
      = .vdict [("a", .vdict [("b", .vdict [("c", .vint 1)])])] := by decide

theorem wrapLoop_msize (v : Value) :
    ∀ (segs : List String) (nd : Value),
      msizeV (wrapLoop v segs nd)
        ≤ (segs.map (fun s => 2 * (chars s).length + 1)).sum
            + max (msizeV nd) (msizeV v) := by
  intro segs
  induction segs with
  | nil => intro nd; simp [wrapLoop, Nat.le_max_left]
  | cons s rest ih =>
      intro nd
      simp only [wrapLoop, List.map_cons, List.sum_cons]
      by_cases hs : (s == "") = true
      · rw [if_pos hs]
        have h1 := ih nd
        omega
      · rw [if_neg hs]
        by_cases ht : truthy nd = true
        · rw [if_pos ht]
          have h1 := ih (.vdict [(s, nd)])
          have h2 : msizeV (.vdict [(s, nd)])
              = 2 * (chars s).length + 1 + msizeV nd := by
            simp [msizeV, msizeD]
          omega
        · rw [if_neg ht]
          have h1 := ih (.vdict [(s, v)])
          have h2 : msizeV (.vdict [(s, v)])
              = 2 * (chars s).length + 1 + msizeV v := by
            simp [msizeV, msizeD]
          omega

theorem sum_two_mul_add_one (l : List (List Char)) :
    (l.map (fun cs => 2 * cs.length + 1)).sum
      = 2 * (l.map List.length).sum + l.length := by
  induction l with
  | nil => simp
  | cons p rest ih =>
      simp only [List.map_cons, List.sum_cons, List.length_cons]
      omega

/-- The nested single-branch dict built from the segments of a path key is
strictly smaller (for the merge measure) than the pair it came from. -/
theorem chain_msize_lt (sep k : String) (v : Value)
    (h : 1 < (pySplit sep k).length) :
    3 * msizeV (wrapLoop v (pySplit sep k).reverse .vnone) + 2
      < 3 * (2 * (chars k).length + 1 + msizeV v) := by
  by_cases hsep : chars sep = []
  · rw [pySplit, if_pos hsep] at h
    simp at h
  · have hsl : 1 ≤ (chars sep).length := by
      cases hc : chars sep with
      | nil => exact absurd hc hsep
      | cons a as => simp
    have hsplit : pySplit sep k
        = (splitAux (chars sep) (chars k) 0 []).map strOfChars := by
      rw [pySplit, if_neg hsep]
    have hsum := splitAux_sum (chars sep) (chars k) 0 []
    simp only [List.length_nil, Nat.zero_add, Nat.zero_min,
      Nat.sub_zero] at hsum
    have hw := wrapLoop_msize v (pySplit sep k).reverse .vnone
    have hmax : max (msizeV .vnone) (msizeV v) = msizeV v := by
      simp [msizeV]
    have hs1 : ((pySplit sep k).reverse.map
        (fun s => 2 * (chars s).length + 1)).sum
        = ((pySplit sep k).map (fun s => 2 * (chars s).length + 1)).sum := by
      rw [List.map_reverse, List.sum_reverse]
    have hs2 : ((pySplit sep k).map (fun s => 2 * (chars s).length + 1)).sum
        = ((splitAux (chars sep) (chars k) 0 []).map
            (fun cs => 2 * cs.length + 1)).sum := by
      rw [hsplit, List.map_map]
      rfl
    have hs3 := sum_two_mul_add_one (splitAux (chars sep) (chars k) 0 [])
    rw [hmax, hs1, hs2, hs3] at hw
    have hlen : (pySplit sep k).length
        = (splitAux (chars sep) (chars k) 0 []).length := by
      rw [hsplit, List.length_map]
    rw [hlen] at h
    have hmul : (splitAux (chars sep) (chars k) 0 []).length - 1
        ≤ ((splitAux (chars sep) (chars k) 0 []).length - 1)
            * (chars sep).length := by
      calc (splitAux (chars sep) (chars k) 0 []).length - 1
          = ((splitAux (chars sep) (chars k) 0 []).length - 1) * 1 := by omega
        _ ≤ _ := Nat.mul_le_mul_left _ hsl
    omega

mutual

/-- `dict_merge(a, b, dict_boundary)` from `zenconf/merged_config.py`.
If `b` is not a dict it is returned verbatim; otherwise the result starts
as a deep copy of `a` (identity here) and the pairs of `b` are folded in.
`none` models a Python `TypeError` (indexing / `in` on a non-dict). -/
def dictMerge (sep : String) (a b : Value) : Option Value :=
  match b with
  | .vdict l => mergePairs sep a l
  | _ => some b
termination_by 3 * msizeV b + 2
decreasing_by
  simp only [msizeV]
  omega

/-- The `for k, v in b.iteritems()` loop of `dict_merge`, threading the
`result` variable through the per-key step. -/
def mergePairs (sep : String) (result : Value) :
    List (String × Value) → Option Value
  | [] => some result
  | (k, v) :: rest =>
      match mergeKey sep result k v with
      | none => none
      | some r' => mergePairs sep r' rest
termination_by pairs => 3 * msizeD pairs + 1
decreasing_by
  all_goals simp only [msizeD]
  all_goals omega

/-- One iteration of `dict_merge`'s loop: split `k` on the boundary; with
more than one segment, build the nested single-branch dict (skipping empty
segments) and merge it recursively; otherwise assign or recursively merge
at `k`.  When `result` is not a dict, `k in result` / `result[k]` raise
`TypeError` (`none`). -/
def mergeKey (sep : String) (result : Value) (k : String) (v : Value) :
    Option Value :=
  if h : 1 < (pySplit sep k).length then
    dictMerge sep result (wrapLoop v (pySplit sep k).reverse .vnone)
  else
    match result with
    | .vdict rl =>
        match dlookup rl k with
        | some (.vdict ml) =>
            match dictMerge sep (.vdict ml) v with
            | none => none
            | some m' => some (.vdict (dinsert rl k m'))
        | some _ => some (.vdict (dinsert rl k v))
        | none => some (.vdict (dinsert rl k v))
    | _ => none
termination_by 3 * (2 * (chars k).length + 1 + msizeV v)
decreasing_by
  · exact chain_msize_lt sep k v h
  · omega

end

/-- Python `str.lower` on one character (ASCII, as the library's keys). -/
def lowerChar (c : Char) : Char :=
  if 'A' ≤ c ∧ c ≤ 'Z' then Char.ofNat (c.toNat + 32) else c

/-- Python `s.lower()`. -/
def pyLower (s : String) : String := strOfChars ((chars s).map lowerChar)

/-- Python `s.endswith(suf)`. -/
def pyEndsWith (s suf : String) : Bool :=
  (chars suf).isSuffixOf (chars s)

/-- Python `s.startswith(pre)`. -/
def pyStartsWith (s pre : String) : Bool :=
  (chars pre).isPrefixOf (chars s)

example : pyLower "MYAPP_" = "myapp_" := by decide
example : pyEndsWith "MYAPP_" "_" = true := by decide
example : pyStartsWith "test_x" "test_" = true := by decide

/-- The app-name normalization in `MergedConfig.__init__`: append `'_'`
when the supplied name does not already end with one, then lower-case. -/
def normalizeAppName (s : String) : String :=
  pyLower (if pyEndsWith s "_" then s else s ++ "_")

/-- The state of a `MergedConfig` registry: the ordered list of added
sources, the dict-boundary delimiter and the stored app-name prefix. -/
structure MergedConfigState where
  sources : List (List (String × Value))
  dictBoundary : String
  appName : String

/-- `MergedConfig.__init__(app_name, dict_boundary)`.  The Python default
`app_name=None` reaches `None.endswith('_')` and raises `AttributeError`
before any state is created; `none` models that failure. -/
def initMergedConfig (appName : Option String) (dictBoundary : String) :
    Option MergedConfigState :=
  match appName with
  | none => none
  | some s => some ⟨[], dictBoundary, normalizeAppName s⟩

/-- `re.sub('^_+', '', s)`: strip the leading run of underscores. -/
def stripLeadingUnderscores (s : String) : String :=
  strOfChars ((chars s).dropWhile (fun c => c == '_'))

/-- Python `s.replace('-', '_')` (single-character pattern). -/
def hyphensToUnderscores (s : String) : String :=
  strOfChars ((chars s).map (fun c => if c == '-' then '_' else c))

/-- The module-level `default_key_normalisation_func`: lower-case, replace
hyphens with underscores, strip leading underscores. -/
def defaultKeyNormalisationFunc (k : String) : String :=
  stripLeadingUnderscores (hyphensToUnderscores (pyLower k))

example : defaultKeyNormalisationFunc "-Foo-BAR" = "foo_bar" := by decide
example : defaultKeyNormalisationFunc "__Foo-BAR" = "foo_bar" := by decide
example : defaultKeyNormalisationFunc "Foo-BAR" = "foo_bar" := by decide

/-- `re.sub(re.compile('^' + app_name), '', k)` in `MergedConfig.add`:
remove the app-name prefix from the start of `k` when present (the stored
prefix contains no regex metacharacters in the modelled scenarios). -/
def stripAppNameKey (pfx k : String) : String :=
  if pyStartsWith k pfx then strOfChars ((chars k).drop (chars pfx).length)
  else k

/-- `MergedConfig.add(config, strip_app_name, filter_by_app_name,
key_normalisation_func)`: normalize all keys with the tree walker, then
optionally filter by the app-name prefix (`funcy.select_keys` followed by
`funcy.compact`, which drops falsy values), then optionally strip the
prefix from top-level keys (`funcy.walk_keys`), and append the result to
the source list. -/
def addConfig (st : MergedConfigState) (config : List (String × Value))
    (stripApp filterApp : Bool) (f : String → String) : MergedConfigState :=
  let c1 := walkPass f config (walkKeysRaw f config)
  let c2 := if filterApp then
      (c1.filter (fun p => pyStartsWith p.1 st.appName)).filter
        (fun p => truthy p.2)
    else c1
  let c3 := if stripApp then walkKeysRaw (stripAppNameKey st.appName) c2
    else c2
  ⟨st.sources ++ [c3], st.dictBoundary, st.appName⟩

/-- `MergedConfig.get_merged_config()`: fold the sources left to right
through `dict_merge`, starting from an empty ordered dict. -/
def getMergedConfig (st : MergedConfigState) : Option Value :=
  st.sources.foldl
    (fun acc src =>
      match acc with
      | none => none
      | some m => dictMerge st.dictBoundary m (.vdict src))
    (some (.vdict []))

theorem dlookup_dinsert_self (l : List (String × Value)) (k : String)
    (v : Value) : dlookup (dinsert l k v) k = some v := by
  induction l with
  | nil => simp [dinsert, dlookup]
  | cons p rest ih =>
      obtain ⟨k', v'⟩ := p
      by_cases h : k' = k
      · simp [dinsert, dlookup, h]
      · simp [dinsert, dlookup, h, ih]

theorem dlookup_dinsert_ne (l : List (String × Value)) (k k' : String)
    (v : Value) (h : k' ≠ k) :
    dlookup (dinsert l k v) k' = dlookup l k' := by
  induction l with
  | nil => simp [dinsert, dlookup, Ne.symm h]
  | cons p rest ih =>
      obtain ⟨k0, v0⟩ := p
      by_cases h0 : k0 = k
      · subst h0
        simp [dinsert, dlookup, Ne.symm h]
      · by_cases h1 : k0 = k'
        · simp [dinsert, dlookup, h0, h1, h]
        · simp [dinsert, dlookup, h0, h1, ih]

theorem dinsert_of_dlookup_eq (l : List (String × Value)) (k : String)
    (v : Value) (h : dlookup l k = some v) : dinsert l k v = l := by
  induction l with
  | nil => simp [dlookup] at h
  | cons p rest ih =>
      obtain ⟨k0, v0⟩ := p
      by_cases h0 : k0 = k
      · simp only [dlookup, if_pos h0] at h
        obtain rfl : v0 = v := by injection h
        simp [dinsert, h0]
      · simp only [dlookup, if_neg h0] at h
        simp [dinsert, h0, ih h]

theorem mem_dinsert (p : String × Value) (l : List (String × Value))
    (k : String) (v : Value) (h : p ∈ dinsert l k v) :
    p = (k, v) ∨ p ∈ l := by
  induction l with
  | nil =>
      simp [dinsert] at h
      exact Or.inl h
  | cons q rest ih =>
      obtain ⟨k0, v0⟩ := q
      by_cases h0 : k0 = k
      · subst h0
        simp only [dinsert, if_pos rfl] at h
        rcases List.mem_cons.mp h with h1 | h1
        · exact Or.inl h1
        · exact Or.inr (List.mem_cons_of_mem _ h1)
      · simp only [dinsert, if_neg h0] at h
        rcases List.mem_cons.mp h with h1 | h1
        · exact Or.inr (h1 ▸ List.mem_cons_self _ _)
        · rcases ih h1 with h2 | h2
          · exact Or.inl h2
          · exact Or.inr (List.mem_cons_of_mem _ h2)

theorem dlookup_eq_none_of_not_mem (l : List (String × Value)) (k : String)
    (h : k ∉ l.map Prod.fst) : dlookup l k = none := by
  induction l with
  | nil => simp [dlookup]
  | cons p rest ih =>
      obtain ⟨k0, v0⟩ := p
      simp only [List.map_cons, List.mem_cons] at h
      push_neg at h
      simp [dlookup, Ne.symm h.1, ih h.2]

theorem mem_of_dlookup_eq_some (l : List (String × Value)) (k : String)
    (v : Value) (h : dlookup l k = some v) : (k, v) ∈ l := by
  induction l with
  | nil => simp [dlookup] at h
  | cons p rest ih =>
      obtain ⟨k0, v0⟩ := p
      by_cases h0 : k0 = k
      · subst h0
        simp only [dlookup, if_pos rfl] at h
        obtain rfl : v0 = v := by injection h
        exact List.mem_cons_self _ _
      · simp only [dlookup, if_neg h0] at h
        exact List.mem_cons_of_mem _ (ih h)

theorem dlookup_eq_some_of_mem_nodup (l : List (String × Value))
    (p : String × Value) (hnd : (l.map Prod.fst).Nodup) (h : p ∈ l) :
    dlookup l p.1 = some p.2 := by
  induction l with
  | nil => simp at h
  | cons q rest ih =>
      obtain ⟨k0, v0⟩ := q
      simp only [List.map_cons, List.nodup_cons] at hnd
      rcases List.mem_cons.mp h with h1 | h1
      · subst h1
        simp [dlookup]
      · have hne : k0 ≠ p.1 := by
          intro he
          exact hnd.1 (he ▸ List.mem_map_of_mem Prod.fst h1)
        simp [dlookup, hne, ih hnd.2 h1]

theorem mergeKey_path (sep : String) (result : Value) (k : String)
    (v : Value) (h : 1 < (pySplit sep k).length) :
    mergeKey sep result k v
      = dictMerge sep result (wrapLoop v (pySplit sep k).reverse .vnone) := by
  rw [mergeKey.eq_def]
  rw [dif_pos h]

theorem mergeKey_plain (sep : String) (rl : List (String × Value))
    (k : String) (v : Value) (h : ¬ 1 < (pySplit sep k).length) :
    mergeKey sep (.vdict rl) k v
      = match dlookup rl k with
        | some (.vdict ml) =>
            (match dictMerge sep (.vdict ml) v with
             | none => none
             | some m' => some (.vdict (dinsert rl k m')))
        | some _ => some (.vdict (dinsert rl k v))
        | none => some (.vdict (dinsert rl k v)) := by
  rw [mergeKey.eq_def]
  rw [dif_neg h]

theorem dictMerge_single (sep : String) (a : List (String × Value))
    (k : String) (v : Value) :
    dictMerge sep (.vdict a) (.vdict [(k, v)])
      = mergeKey sep (.vdict a) k v := by
  cases hm : mergeKey sep (.vdict a) k v with
  | none => simp [dictMerge, mergePairs, hm]
  | some r => simp [dictMerge, mergePairs, hm]

theorem dictMerge_nondict (sep : String) (a b : Value)
    (h : isDict b = false) : dictMerge sep a b = some b := by
  cases b <;> simp_all [dictMerge, isDict]

theorem wrapLoop_of_filter_nil (v : Value) :
    ∀ (segs : List String) (nd : Value),
      segs.filter (fun p => !(p == "")) = [] → wrapLoop v segs nd = nd := by
  intro segs
  induction segs with
  | nil => intro nd _; simp [wrapLoop]
  | cons s rest ih =>
      intro nd h
      by_cases hs : (s == "") = true
      · simp only [List.filter_cons, hs, Bool.not_true, if_neg] at h
        · simp only [wrapLoop, if_pos hs]
          exact ih nd (by simpa using h)
      · simp [List.filter_cons, hs] at h

/-- Claim C2, counterexample: the key `"__a"` splits on `"__"` into
`["", "a"]` — exactly one non-empty segment — yet `dict_merge` treats it
as a path key (the code tests `len(k.split(boundary)) > 1`, counting empty
segments), so merging `{"__a": 1}` into `{}` yields `{"a": 1}`, not the
verbatim key `"__a"` the claim requires. -/
theorem c2_counterexample :
    dictMerge "__" (.vdict []) (.vdict [("__a", .vint 1)])
        = some (.vdict [("a", .vint 1)])
      ∧ some (Value.vdict [("a", .vint 1)])
          ≠ some (Value.vdict [("__a", .vint 1)])
      ∧ (pySplit "__" "__a").filter (fun p => !(p == "")) = ["a"] := by
  refine ⟨?_, by decide, by decide⟩
  simp [dictMerge, mergePairs, mergeKey, pySplit, splitAux, wrapLoop,
    dlookup, dinsert, truthy, chars, strOfChars]

/-- Claim C2 (amended): a key of `incoming` is treated as a path key iff
its split on the delimiter yields more than one segment, empty segments
included — i.e. iff the key contains the delimiter.  A key whose split is
a single segment is an ordinary key, kept verbatim as a key of the result
(merged recursively when the existing value is a dict, otherwise
assigned); keys such as `"__a"` or `"a__"` are path keys whose empty
segments are discarded, so `{"__a": 1}` merges into `{}` as `{"a": 1}`. -/
theorem c2_amended :
    (∀ (d : String) (a : List (String × Value)) (k : String) (v : Value),
        (pySplit d k).length = 1 →
          mergeKey d (.vdict a) k v
            = match dlookup a k with
              | some (.vdict ml) =>
                  (match dictMerge d (.vdict ml) v with
                   | none => none
                   | some m' => some (.vdict (dinsert a k m')))
              | some _ => some (.vdict (dinsert a k v))
              | none => some (.vdict (dinsert a k v)))
    ∧ (∀ (d : String) (result : Value) (k : String) (v : Value),
        1 < (pySplit d k).length →
          mergeKey d result k v
            = dictMerge d result (wrapLoop v (pySplit d k).reverse .vnone))
    ∧ dictMerge "__" (.vdict []) (.vdict [("__a", .vint 1)])
        = some (.vdict [("a", .vint 1)])
    ∧ dictMerge "__" (.vdict []) (.vdict [("a__", .vint 1)])
        = some (.vdict [("a", .vint 1)]) := by
  refine ⟨?_, ?_, ?_, ?_⟩
  · intro d a k v h
    exact mergeKey_plain d a k v (by omega)
  · intro d result k v h
    exact mergeKey_path d result k v h
  · simp [dictMerge, mergePairs, mergeKey, pySplit, splitAux, wrapLoop,
      dlookup, dinsert, truthy, chars, strOfChars]
  · simp [dictMerge, mergePairs, mergeKey, pySplit, splitAux, wrapLoop,
      dlookup, dinsert, truthy, chars, strOfChars]

theorem c2_amended_witness :
    mergeKey "__" (.vdict []) "k" (.vint 7)
        = some (.vdict [("k", .vint 7)])
      ∧ mergeKey "__" (.vdict [("p", .vint 0)]) "a__b" (.vint 7)
          = dictMerge "__" (.vdict [("p", .vint 0)])
              (wrapLoop (.vint 7) (pySplit "__" "a__b").reverse .vnone) := by
  constructor
  · have h := c2_amended.1 "__" [] "k" (.vint 7) (by decide)
    rw [h]
    decide
  · exact c2_amended.2.1 "__" (.vdict [("p", .vint 0)]) "a__b" (.vint 7)
      (by decide)

/-- Claim C5: when an incoming key exists in the result and the existing
value is a dict, the values are merged recursively; otherwise the incoming
value replaces the existing one — sequences are replaced wholesale, as are
scalars.  Concretely: `merge({"a":{"b":1}}, {"a":{"c":2}})` is
`{"a":{"b":1,"c":2}}`, `merge({"a":[1,2]}, {"a":[3]})` is `{"a":[3]}` and
`merge({"a":1}, {"a":2})` is `{"a":2}`. -/
theorem c5_override :
    (∀ (d : String) (a ml : List (String × Value)) (k : String) (v : Value),
        (pySplit d k).length = 1 → dlookup a k = some (.vdict ml) →
          mergeKey d (.vdict a) k v
            = match dictMerge d (.vdict ml) v with
              | none => none
              | some m' => some (.vdict (dinsert a k m')))
    ∧ (∀ (d : String) (a : List (String × Value)) (k : String) (v u : Value),
        (pySplit d k).length = 1 → dlookup a k = some u → isDict u = false →
          mergeKey d (.vdict a) k v = some (.vdict (dinsert a k v)))
    ∧ dictMerge "__" (.vdict [("a", .vdict [("b", .vint 1)])])
        (.vdict [("a", .vdict [("c", .vint 2)])])
        = some (.vdict [("a", .vdict [("b", .vint 1), ("c", .vint 2)])])
    ∧ dictMerge "__" (.vdict [("a", .vlist [.vint 1, .vint 2])])
        (.vdict [("a", .vlist [.vint 3])])
        = some (.vdict [("a", .vlist [.vint 3])])
    ∧ dictMerge "__" (.vdict [("a", .vint 1)]) (.vdict [("a", .vint 2)])
        = some (.vdict [("a", .vint 2)]) := by
  refine ⟨?_, ?_, ?_, ?_, ?_⟩
  · intro d a ml k v h hl
    rw [mergeKey_plain d a k v (by omega), hl]
  · intro d a k v u h hl hu
    rw [mergeKey_plain d a k v (by omega), hl]
    cases u <;> simp [isDict] at hu ⊢
  · simp [dictMerge, mergePairs, mergeKey, pySplit, splitAux, wrapLoop,
      dlookup, dinsert, truthy, chars, strOfChars]
  · simp [dictMerge, mergePairs, mergeKey, pySplit, splitAux, wrapLoop,
      dlookup, dinsert, truthy, chars, strOfChars]
  · simp [dictMerge, mergePairs, mergeKey, pySplit, splitAux, wrapLoop,
      dlookup, dinsert, truthy, chars, strOfChars]

theorem c5_override_witness :
    mergeKey "__" (.vdict [("a", .vdict [("b", .vint 1)])]) "a"
        (.vdict [("c", .vint 2)])
        = some (.vdict [("a", .vdict [("b", .vint 1), ("c", .vint 2)])])
      ∧ mergeKey "__" (.vdict [("a", .vint 1)]) "a" (.vint 2)
          = some (.vdict [("a", .vint 2)]) := by
  constructor
  · have h := c5_override.1 "__" [("a", .vdict [("b", .vint 1)])]
      [("b", .vint 1)] "a" (.vdict [("c", .vint 2)]) (by decide) (by decide)
    rw [h]
    simp [dictMerge, mergePairs, mergeKey, pySplit, splitAux, wrapLoop,
      dlookup, dinsert, truthy, chars, strOfChars]
  · have h := c5_override.2.1 "__" [("a", .vint 1)] "a" (.vint 2) (.vint 1)
      (by decide) (by decide) (by decide)
    rw [h]
    decide

/-- Claim C9, counterexample: after the all-empty-split key `"__"` clobbers
the accumulated result to `None`, a following key whose split is also all
empty segments (here `"____"`, splitting into `["", "", ""]`) does not
raise: `dict_merge` completes and returns `None`.  The claim's "if any
further key follows, the merge fails with a type error" is therefore too
strong. -/
theorem c9_counterexample :
    dictMerge "__" (.vdict [("a", .vint 1)])
        (.vdict [("__", .vint 1), ("____", .vint 2)])
      = some .vnone := by
  simp [dictMerge, mergePairs, mergeKey, pySplit, splitAux, wrapLoop,
    dlookup, dinsert, truthy, chars, strOfChars]

/-- Claim C9 (amended): a key splitting into only empty segments replaces
the accumulated result with `None`; if it is the last key the call returns
`None`, and a following ordinary key (or any key reaching the non-dict
result) raises a `TypeError` — but a further key that also splits into
only empty segments leaves the result `None` without raising. -/
theorem c9_amended :
    (∀ (d : String) (result : Value) (k : String) (v : Value),
        1 < (pySplit d k).length →
        (pySplit d k).filter (fun p => !(p == "")) = [] →
        mergeKey d result k v = some .vnone)
    ∧ (∀ (d k : String) (v : Value),
        ¬ 1 < (pySplit d k).length → mergeKey d .vnone k v = none)
    ∧ dictMerge "__" (.vdict [("a", .vint 1)]) (.vdict [("__", .vint 5)])
        = some .vnone
    ∧ dictMerge "__" (.vdict [("a", .vint 1)])
        (.vdict [("__", .vint 5), ("b", .vint 6)]) = none := by
  refine ⟨?_, ?_, ?_, ?_⟩
  · intro d result k v h hf
    rw [mergeKey_path d result k v h]
    have hrev : (pySplit d k).reverse.filter (fun p => !(p == "")) = [] := by
      rw [List.filter_reverse, hf]
      rfl
    rw [wrapLoop_of_filter_nil v _ _ hrev]
    exact dictMerge_nondict d result .vnone rfl
  · intro d k v h
    rw [mergeKey.eq_def, dif_neg h]
  · simp [dictMerge, mergePairs, mergeKey, pySplit, splitAux, wrapLoop,
      dlookup, dinsert, truthy, chars, strOfChars]
  · simp [dictMerge, mergePairs, mergeKey, pySplit, splitAux, wrapLoop,
      dlookup, dinsert, truthy, chars, strOfChars]

theorem c9_amended_witness :
    mergeKey "__" (.vdict [("a", .vint 1)]) "__" (.vint 5) = some .vnone
      ∧ mergeKey "__" .vnone "b" (.vint 6) = none := by
  exact ⟨c9_amended.1 "__" (.vdict [("a", .vint 1)]) "__" (.vint 5)
      (by decide) (by decide),
    c9_amended.2.1 "__" "b" (.vint 6) (by decide)⟩

/-- Claim C6, counterexample: the constructor only appends an underscore
when the supplied name does not already end with one, so an app name
already ending in two underscores keeps both: `"MYAPP__"` stores
`"myapp__"`, which ends with `"__"` — the stored prefix is not always
terminated by exactly one trailing underscore. -/
theorem c6_counterexample :
    normalizeAppName "MYAPP__" = "myapp__"
      ∧ pyEndsWith (normalizeAppName "MYAPP__") "__" = true := by
  decide

/-- Claim C6 (amended): the registry stores the app-name prefix
lower-cased; an underscore is appended iff the caller-supplied name does
not already end with one, so names already ending in underscores are only
lower-cased (the prefix ends with at least one underscore, not exactly
one in general).  `"MYAPP"` stores `"myapp_"` and `"MYAPP_"` stores
`"myapp_"`. -/
theorem c6_amended :
    (∀ s : String, pyEndsWith s "_" = true →
        normalizeAppName s = pyLower s)
    ∧ (∀ s : String, pyEndsWith s "_" = false →
        normalizeAppName s = pyLower (s ++ "_"))
    ∧ normalizeAppName "MYAPP" = "myapp_"
    ∧ normalizeAppName "MYAPP_" = "myapp_" := by
  refine ⟨?_, ?_, by decide, by decide⟩
  · intro s h
    rw [normalizeAppName, if_pos h]
  · intro s h
    rw [normalizeAppName, if_neg (by simp [h])]

theorem c6_amended_witness :
    normalizeAppName "A_" = pyLower "A_"
      ∧ normalizeAppName "A" = pyLower ("A" ++ "_") := by
  exact ⟨c6_amended.1 "A_" (by decide), c6_amended.2.1 "A" (by decide)⟩

/-- Claim C10: `MergedConfig()` without an app name always fails — the
default `app_name=None` hits `None.endswith('_')` and raises — while any
string app name yields a registry (with the normalized prefix stored). -/
theorem c10_init_requires_app_name :
    initMergedConfig none "__" = none
      ∧ (∀ (s d : String), initMergedConfig (some s) d
          = some ⟨[], d, normalizeAppName s⟩) := by
  exact ⟨rfl, fun s d => rfl⟩

/-- Claim C1, counterexample: `walk_recursive` recurses into list elements
and its scalar branch returns `f(data)`, so a string scalar inside a
sequence is passed through the key function: walking
`{"a": ["x"]}` with `f = (· ++ "!")` yields `{"a!": ["x!"]}` — the
element `"x"` did not stay untouched. -/
theorem c1_counterexample :
    walkValue (fun s => s ++ "!") (.vdict [("a", .vlist [.vstr "x"])])
        = .vdict [("a!", .vlist [.vstr "x!"])]
      ∧ Value.vstr "x!" ≠ .vstr "x" := by
  decide

/-- Claim C1 (amended): `walk_recursive` applies `f` to every mapping key
and keeps scalar values stored directly under mapping keys as-is, but
scalar elements of sequences — and a bare scalar argument — are passed
through `f`. -/
theorem c1_amended :
    (∀ (f : String → String) (k : String) (v : Value), isScalar v = true →
        walkValue f (.vdict [(k, v)]) = .vdict [(f k, v)])
    ∧ (∀ (f : String → String) (s : String),
        walkValue f (.vlist [.vstr s]) = .vlist [.vstr (f s)])
    ∧ (∀ (f : String → String) (s : String),
        walkValue f (.vstr s) = .vstr (f s)) := by
  refine ⟨?_, ?_, ?_⟩
  · intro f k v hv
    cases v <;> simp [isScalar] at hv ⊢ <;>
      simp [walkValue, walkPass, walkList, walkKeysRaw, dinsert]
  · intro f s
    simp [walkValue, walkList]
  · intro f s
    simp [walkValue]

theorem c1_amended_witness :
    walkValue (fun s => s ++ "?") (.vdict [("a", .vint 3)])
        = .vdict [("a?", .vint 3)] := by
  exact c1_amended.1 (fun s => s ++ "?") "a" (.vint 3) (by decide)

/-- Claim C7: with `filter_by_app_name=True`, `add` keeps exactly the
top-level pairs whose (normalized) key starts with the stored prefix and
whose value is truthy (`funcy.compact` drops falsy values);
`strip_app_name=True` removes the prefix from keys that have it and leaves
other keys unchanged.  With prefix `"test_"` and input
`{"test_x": 1, "y": 2}`, filtering stores `{"test_x": 1}` and filtering
plus stripping stores `{"x": 1}`. -/
theorem c7_filter_strip :
    (∀ (pfx : String) (l : List (String × Value)),
        (l.filter (fun p => pyStartsWith p.1 pfx)).filter
            (fun p => truthy p.2)
          = l.filter (fun p => pyStartsWith p.1 pfx && truthy p.2))
    ∧ (∀ pfx k : String, pyStartsWith k pfx = false →
        stripAppNameKey pfx k = k)
    ∧ (addConfig ⟨[], "__", "test_"⟩ [("test_x", .vint 1), ("y", .vint 2)]
          false true defaultKeyNormalisationFunc).sources
        = [[("test_x", .vint 1)]]
    ∧ (addConfig ⟨[], "__", "test_"⟩ [("test_x", .vint 1), ("y", .vint 2)]
          true true defaultKeyNormalisationFunc).sources
        = [[("x", .vint 1)]] := by
  refine ⟨?_, ?_, by decide, by decide⟩
  · intro pfx l
    induction l with
    | nil => rfl
    | cons p rest ih =>
        by_cases h1 : pyStartsWith p.1 pfx = true
        · by_cases h2 : truthy p.2 = true
          · simp [List.filter_cons, h1, h2, ih]
          · simp [List.filter_cons, h1, h2, ih]
        · simp [List.filter_cons, h1, ih]
  · intro pfx k h
    rw [stripAppNameKey, if_neg (by simp [h])]

theorem c7_filter_strip_witness :
    stripAppNameKey "test_" "y" = "y" := by
  exact c7_filter_strip.2.1 "test_" "y" (by decide)

/-- The nested single-branch mapping described by the spec: the innermost
segment holds the value, each enclosing segment wraps the previous. -/
def nestedChain (segs : List String) (v : Value) : Value :=
  segs.foldr (fun s acc => .vdict [(s, acc)]) v

theorem nestedChain_append (xs ys : List String) (v : Value) :
    nestedChain (xs ++ ys) v = nestedChain xs (nestedChain ys v) := by
  simp [nestedChain, List.foldr_append]

theorem wrapLoop_filter (v : Value) :
    ∀ (segs : List String) (nd : Value),
      wrapLoop v segs nd
        = wrapLoop v (segs.filter (fun p => !(p == ""))) nd := by
  intro segs
  induction segs with
  | nil => intro nd; rfl
  | cons s rest ih =>
      intro nd
      by_cases hs : (s == "") = true
      · have hf : (s :: rest).filter (fun p => !(p == ""))
            = rest.filter (fun p => !(p == "")) := by
          simp [List.filter_cons, hs]
        rw [hf]
        simp only [wrapLoop]
        rw [if_pos hs]
        exact ih nd
      · have hf : (s :: rest).filter (fun p => !(p == ""))
            = s :: rest.filter (fun p => !(p == "")) := by
          simp [List.filter_cons, hs]
        rw [hf]
        simp only [wrapLoop]
        rw [if_neg hs, if_neg hs]
        by_cases ht : truthy nd = true
        · rw [if_pos ht, if_pos ht]
          exact ih _
        · rw [if_neg ht, if_neg ht]
          exact ih _

theorem wrapLoop_chain (v : Value) :
    ∀ (segs : List String) (c : Value),
      (∀ p ∈ segs, (p == "") = false) → truthy c = true →
      wrapLoop v segs c = nestedChain segs.reverse c := by
  intro segs
  induction segs with
  | nil => intro c _ _; rfl
  | cons s rest ih =>
      intro c hne ht
      have hs : (s == "") = false := hne s (List.mem_cons_self _ _)
      simp only [wrapLoop]
      rw [if_neg (by simp [hs]), if_pos ht]
      rw [ih (.vdict [(s, c)])
        (fun p hp => hne p (List.mem_cons_of_mem _ hp)) (by simp [truthy])]
      rw [List.reverse_cons, nestedChain_append]
      rfl

theorem wrapLoop_nonempty (v : Value) (segs : List String)
    (hne : ∀ p ∈ segs, (p == "") = false) (h : segs ≠ []) :
    wrapLoop v segs .vnone = nestedChain segs.reverse v := by
  cases segs with
  | nil => exact absurd rfl h
  | cons s rest =>
      have hs : (s == "") = false := hne s (List.mem_cons_self _ _)
      simp only [wrapLoop]
      rw [if_neg (by simp [hs]), if_neg (by simp [truthy])]
      rw [wrapLoop_chain v rest (.vdict [(s, v)])
        (fun p hp => hne p (List.mem_cons_of_mem _ hp)) (by simp [truthy])]
      rw [List.reverse_cons, nestedChain_append]
      rfl

/-- Claim C3: a path key is expanded innermost-out into the nested
single-branch mapping over its non-empty segments (empty segments are
discarded) and that mapping is recursively merged into the accumulating
result; `{"a__b__c": 1}` into `{}` yields `{"a": {"b": {"c": 1}}}`, and
several path keys compose: `{"a__b": 1, "a__c": 2}` into `{}` yields
`{"a": {"b": 1, "c": 2}}`. -/
theorem c3_path_key :
    (∀ (d k : String) (v : Value),
        1 < (pySplit d k).length →
        (pySplit d k).filter (fun p => !(p == "")) ≠ [] →
        (∀ p ∈ pySplit d k, (p == "") = false → pySplit d p = [p]) →
        dictMerge d (.vdict []) (.vdict [(k, v)])
          = some (nestedChain
              ((pySplit d k).filter (fun p => !(p == ""))) v))
    ∧ dictMerge "__" (.vdict []) (.vdict [("a__b__c", .vint 1)])
        = some (.vdict [("a", .vdict [("b", .vdict [("c", .vint 1)])])])
    ∧ dictMerge "__" (.vdict [])
        (.vdict [("a__b", .vint 1), ("a__c", .vint 2)])
        = some (.vdict [("a", .vdict [("b", .vint 1), ("c", .vint 2)])]) := by
  refine ⟨?_, ?_, ?_⟩
  · intro d k v h hne hp
    rw [dictMerge_single, mergeKey_path d _ k v h]
    rw [wrapLoop_filter, List.filter_reverse]
    have hmem : ∀ p ∈ ((pySplit d k).filter (fun p => !(p == ""))).reverse,
        (p == "") = false := by
      intro p hp2
      have := List.of_mem_filter (List.mem_reverse.mp hp2)
      simpa using this
    rw [wrapLoop_nonempty v _ hmem (by simpa using hne)]
    rw [List.reverse_reverse]
    cases hc : (pySplit d k).filter (fun p => !(p == "")) with
    | nil => exact absurd hc hne
    | cons p tail =>
        have hpk : pySplit d p = [p] := by
          have hpmem : p ∈ (pySplit d k).filter (fun p => !(p == "")) := by
            rw [hc]; exact List.mem_cons_self _ _
          exact hp p (List.mem_of_mem_filter hpmem)
            (by simpa using List.of_mem_filter hpmem)
        have : nestedChain (p :: tail) v
            = .vdict [(p, nestedChain tail v)] := rfl
        rw [this, dictMerge_single]
        rw [mergeKey_plain d [] p (nestedChain tail v) (by rw [hpk]; simp)]
        rfl
  · simp [dictMerge, mergePairs, mergeKey, pySplit, splitAux, wrapLoop,
      dlookup, dinsert, truthy, chars, strOfChars]
  · simp [dictMerge, mergePairs, mergeKey, pySplit, splitAux, wrapLoop,
      dlookup, dinsert, truthy, chars, strOfChars]

theorem c3_path_key_witness :
    dictMerge "__" (.vdict []) (.vdict [("x__y", .vint 9)])
      = some (nestedChain
          ((pySplit "__" "x__y").filter (fun p => !(p == ""))) (.vint 9)) := by
  exact c3_path_key.1 "__" "x__y" (.vint 9) (by decide) (by decide)
    (by decide)

/-- Folding a flat source (delimiter-free distinct keys, non-dict values)
into a flat dict base always succeeds, stays flat, and gives the incoming
pairs precedence over the base. -/
theorem mergePairs_flat (d : String) :
    ∀ (l rl : List (String × Value)),
      (∀ p ∈ l, (pySplit d p.1).length = 1 ∧ isDict p.2 = false) →
      (∀ p ∈ rl, isDict p.2 = false) →
      (l.map Prod.fst).Nodup →
      ∃ r, mergePairs d (.vdict rl) l = some (.vdict r)
        ∧ (∀ p ∈ r, isDict p.2 = false)
        ∧ (∀ k', dlookup r k'
            = match dlookup l k' with
              | some w => some w
              | none => dlookup rl k') := by
  intro l
  induction l with
  | nil =>
      intro rl _ hrl _
      refine ⟨rl, by simp [mergePairs], hrl, ?_⟩
      intro k'
      simp [dlookup]
  | cons hd rest ih =>
      obtain ⟨k0, v0⟩ := hd
      intro rl hl hrl hnd
      have h0 := hl (k0, v0) (List.mem_cons_self _ _)
      have hmk : mergeKey d (.vdict rl) k0 v0
          = some (.vdict (dinsert rl k0 v0)) := by
        rw [mergeKey_plain d rl k0 v0
          (by have hx : (pySplit d k0).length = 1 := h0.1; omega)]
        cases hdl : dlookup rl k0 with
        | none => rfl
        | some u =>
            have hu : isDict u = false :=
              hrl (k0, u) (mem_of_dlookup_eq_some _ _ _ hdl)
            cases u <;> simp [isDict] at hu ⊢
      have hstep : mergePairs d (.vdict rl) ((k0, v0) :: rest)
          = mergePairs d (.vdict (dinsert rl k0 v0)) rest := by
        rw [mergePairs.eq_def]
        simp [hmk]
      have hrl' : ∀ p ∈ dinsert rl k0 v0, isDict p.2 = false := by
        intro p hp
        rcases mem_dinsert p rl k0 v0 hp with h | h
        · rw [h]
          exact h0.2
        · exact hrl p h
      simp only [List.map_cons, List.nodup_cons] at hnd
      obtain ⟨r, hr1, hr2, hr3⟩ := ih (dinsert rl k0 v0)
        (fun p hp => hl p (List.mem_cons_of_mem _ hp)) hrl' hnd.2
      refine ⟨r, by rw [hstep]; exact hr1, hr2, ?_⟩
      intro k'
      by_cases hk : k0 = k'
      · subst hk
        rw [hr3 k0]
        have hrest : dlookup rest k0 = none :=
          dlookup_eq_none_of_not_mem _ _ hnd.1
        rw [hrest]
        simp [dlookup, dlookup_dinsert_self]
      · rw [hr3 k']
        cases hdl2 : dlookup rest k' with
        | some w => simp [dlookup, hk, hdl2]
        | none =>
            simp [dlookup, hk, hdl2,
              dlookup_dinsert_ne rl k0 k' v0 (Ne.symm hk)]

/-- Claim C4, counterexample: both sources hold the delimiter-free key
`"k"` with scalar values, yet the second source's additional path key
`"k__x"` later overwrites `result["k"]`, so
`merge(merge({}, S1), S2)["k"]` is `{"x": 2}` and not `S2["k"] = 1`. -/
theorem c4_counterexample :
    dictMerge "__" (.vdict []) (.vdict [("k", .vint 1)])
        = some (.vdict [("k", .vint 1)])
      ∧ dictMerge "__" (.vdict [("k", .vint 1)])
          (.vdict [("k", .vint 1), ("k__x", .vint 2)])
          = some (.vdict [("k", .vdict [("x", .vint 2)])])
      ∧ dlookup [("k", .vint 1), ("k__x", .vint 2)] "k" = some (.vint 1)
      ∧ Value.vdict [("x", .vint 2)] ≠ .vint 1 := by
  refine ⟨?_, ?_, by decide, by decide⟩
  · simp [dictMerge, mergePairs, mergeKey, pySplit, splitAux, wrapLoop,
      dlookup, dinsert, truthy, chars, strOfChars]
  · simp [dictMerge, mergePairs, mergeKey, pySplit, splitAux, wrapLoop,
      dlookup, dinsert, truthy, chars, strOfChars]

/-- Claim C4 (amended): later sources win on conflicts for flat sources —
whenever every key of S1 and S2 is delimiter-free and distinct and all
values are non-mappings, `merge(merge({}, S1, d), S2, d)[k] = S2[k]` for
every key `k` of S2; and merge is not commutative. -/
theorem c4_later_wins :
    (∀ (d : String) (l1 l2 : List (String × Value)) (k : String)
        (v : Value),
        (∀ p ∈ l1, (pySplit d p.1).length = 1 ∧ isDict p.2 = false) →
        (∀ p ∈ l2, (pySplit d p.1).length = 1 ∧ isDict p.2 = false) →
        (l1.map Prod.fst).Nodup → (l2.map Prod.fst).Nodup →
        dlookup l2 k = some v →
        ∃ m r, dictMerge d (.vdict []) (.vdict l1) = some (.vdict m)
          ∧ dictMerge d (.vdict m) (.vdict l2) = some (.vdict r)
          ∧ dlookup r k = some v)
    ∧ dictMerge "__" (.vdict [("x", .vint 1)]) (.vdict [("x", .vint 2)])
        ≠ dictMerge "__" (.vdict [("x", .vint 2)])
            (.vdict [("x", .vint 1)]) := by
  constructor
  · intro d l1 l2 k v h1 h2 hnd1 hnd2 hlk
    obtain ⟨m, hm1, hm2, _⟩ := mergePairs_flat d l1 [] h1 (by simp) hnd1
    obtain ⟨r, hr1, _, hr3⟩ := mergePairs_flat d l2 m h2 hm2 hnd2
    refine ⟨m, r, ?_, ?_, ?_⟩
    · rw [dictMerge]
      exact hm1
    · rw [dictMerge]
      exact hr1
    · rw [hr3 k, hlk]
  · have e1 : dictMerge "__" (.vdict [("x", .vint 1)])
        (.vdict [("x", .vint 2)]) = some (.vdict [("x", .vint 2)]) := by
      simp [dictMerge, mergePairs, mergeKey, pySplit, splitAux, wrapLoop,
        dlookup, dinsert, truthy, chars, strOfChars]
    have e2 : dictMerge "__" (.vdict [("x", .vint 2)])
        (.vdict [("x", .vint 1)]) = some (.vdict [("x", .vint 1)]) := by
      simp [dictMerge, mergePairs, mergeKey, pySplit, splitAux, wrapLoop,
        dlookup, dinsert, truthy, chars, strOfChars]
    rw [e1, e2]
    decide

theorem c4_later_wins_witness :
    ∃ m r, dictMerge "__" (.vdict []) (.vdict [("k", .vint 1)])
        = some (.vdict m)
      ∧ dictMerge "__" (.vdict m) (.vdict [("k", .vint 2)])
          = some (.vdict r)
      ∧ dlookup r "k" = some (.vint 2) := by
  exact c4_later_wins.1 "__" [("k", .vint 1)] [("k", .vint 2)] "k"
    (.vint 2) (by decide) (by decide) (by decide) (by decide) (by decide)

theorem dinsert_of_not_mem (l : List (String × Value)) (k : String)
    (v : Value) (h : k ∉ l.map Prod.fst) : dinsert l k v = l ++ [(k, v)] := by
  induction l with
  | nil => rfl
  | cons p rest ih =>
      obtain ⟨k0, v0⟩ := p
      simp only [List.map_cons, List.mem_cons] at h
      push_neg at h
      simp only [dinsert]
      rw [if_neg (fun he => h.1 he.symm), ih h.2]
      rfl

theorem keys_dinsert_sub (l : List (String × Value)) (k K : String)
    (v : Value) (h : K ∈ (dinsert l k v).map Prod.fst) :
    K = k ∨ K ∈ l.map Prod.fst := by
  obtain ⟨p, hp, he⟩ := List.mem_map.mp h
  rcases mem_dinsert p l k v hp with h1 | h1
  · left
    rw [← he, h1]
  · right
    rw [← he]
    exact List.mem_map_of_mem _ h1

theorem keys_dinsert_of_mem (l : List (String × Value)) (k : String)
    (v : Value) (h : k ∈ l.map Prod.fst) :
    (dinsert l k v).map Prod.fst = l.map Prod.fst := by
  induction l with
  | nil => simp at h
  | cons p rest ih =>
      obtain ⟨k0, v0⟩ := p
      by_cases h0 : k0 = k
      · simp [dinsert, h0]
      · simp only [List.map_cons, List.mem_cons] at h
        rcases h with h | h
        · exact absurd h.symm h0
        · simp [dinsert, h0, ih h]

theorem nodup_keys_dinsert (l : List (String × Value)) (k : String)
    (v : Value) (h : (l.map Prod.fst).Nodup) :
    ((dinsert l k v).map Prod.fst).Nodup := by
  by_cases hm : k ∈ l.map Prod.fst
  · rw [keys_dinsert_of_mem l k v hm]
    exact h
  · rw [dinsert_of_not_mem l k v hm, List.map_append]
    simp only [List.map_cons, List.map_nil]
    rw [List.nodup_append]
    refine ⟨h, List.nodup_singleton k, ?_⟩
    intro a ha
    simp only [List.mem_singleton]
    intro he
    exact hm (he ▸ ha)

theorem foldl_dinsert_nodup (f : String → String) :
    ∀ (l acc : List (String × Value)), (acc.map Prod.fst).Nodup →
      ((l.foldl (fun a p => dinsert a (f p.1) p.2) acc).map Prod.fst).Nodup := by
  intro l
  induction l with
  | nil => intro acc h; simpa using h
  | cons p rest ih =>
      intro acc h
      simp only [List.foldl_cons]
      exact ih _ (nodup_keys_dinsert _ _ _ h)

theorem walkKeysRaw_nodup (f : String → String) (l : List (String × Value)) :
    ((walkKeysRaw f l).map Prod.fst).Nodup :=
  foldl_dinsert_nodup f l [] (by simp)

theorem foldl_dinsert_keys_image (f : String → String) :
    ∀ (l acc : List (String × Value)),
      (∀ K ∈ acc.map Prod.fst, ∃ k0, K = f k0) →
      ∀ K ∈ (l.foldl (fun a p => dinsert a (f p.1) p.2) acc).map Prod.fst,
        ∃ k0, K = f k0 := by
  intro l
  induction l with
  | nil => intro acc h; simpa using h
  | cons p rest ih =>
      intro acc h
      simp only [List.foldl_cons]
      apply ih
      intro K hK
      rcases keys_dinsert_sub acc (f p.1) K p.2 hK with h1 | h1
      · exact ⟨p.1, h1⟩
      · exact h K h1

theorem walkKeysRaw_keys_image (f : String → String)
    (l : List (String × Value)) :
    ∀ K ∈ (walkKeysRaw f l).map Prod.fst, ∃ k0, K = f k0 :=
  foldl_dinsert_keys_image f l [] (by simp)

theorem foldl_dinsert_values (f : String → String) :
    ∀ (l acc : List (String × Value)) (K : String) (V : Value),
      dlookup (l.foldl (fun a p => dinsert a (f p.1) p.2) acc) K = some V →
      dlookup acc K = some V ∨ ∃ k0, (k0, V) ∈ l ∧ f k0 = K := by
  intro l
  induction l with
  | nil => intro acc K V h; exact Or.inl (by simpa using h)
  | cons p rest ih =>
      obtain ⟨k1, v1⟩ := p
      intro acc K V h
      simp only [List.foldl_cons] at h
      rcases ih _ K V h with h1 | h1
      · by_cases hk : K = f k1
        · subst hk
          rw [dlookup_dinsert_self] at h1
          obtain rfl : v1 = V := by injection h1
          exact Or.inr ⟨k1, List.mem_cons_self _ _, rfl⟩
        · rw [dlookup_dinsert_ne _ _ _ _ hk] at h1
          exact Or.inl h1
      · obtain ⟨k0, hm, hfk⟩ := h1
        exact Or.inr ⟨k0, List.mem_cons_of_mem _ hm, hfk⟩

theorem walkKeysRaw_values (f : String → String) (l : List (String × Value))
    (K : String) (V : Value) (h : dlookup (walkKeysRaw f l) K = some V) :
    ∃ k0, (k0, V) ∈ l ∧ f k0 = K := by
  rcases foldl_dinsert_values f l [] K V h with h1 | h1
  · simp [dlookup] at h1
  · exact h1

theorem foldl_dinsert_fixed (f : String → String) :
    ∀ (r acc : List (String × Value)),
      (∀ p ∈ r, f p.1 = p.1) →
      ((acc.map Prod.fst ++ r.map Prod.fst).Nodup) →
      r.foldl (fun a p => dinsert a (f p.1) p.2) acc = acc ++ r := by
  intro r
  induction r with
  | nil => intro acc _ _; simp
  | cons p rest ih =>
      obtain ⟨k, v⟩ := p
      intro acc hfix hnd
      simp only [List.foldl_cons]
      have hk : f (k, v).1 = k := hfix (k, v) (List.mem_cons_self _ _)
      rw [hk]
      have hnotin : k ∉ acc.map Prod.fst := by
        rw [List.nodup_append] at hnd
        intro hin
        exact hnd.2.2 hin (by simp)
      rw [dinsert_of_not_mem _ _ _ hnotin]
      have hnd' : ((acc ++ [(k, v)]).map Prod.fst
          ++ rest.map Prod.fst).Nodup := by
        rw [List.map_append]
        simp only [List.map_cons, List.map_nil]
        rw [List.append_assoc]
        simpa [List.map_cons] using hnd
      have := ih (acc ++ [(k, v)])
        (fun q hq => hfix q (List.mem_cons_of_mem _ hq)) hnd'
      rw [this, List.append_assoc]
      rfl

theorem walkPass_keys_nodup (f : String → String) :
    ∀ (l2 acc : List (String × Value)), (acc.map Prod.fst).Nodup →
      ((walkPass f l2 acc).map Prod.fst).Nodup := by
  intro l2
  induction l2 with
  | nil => intro acc h; simpa [walkPass] using h
  | cons p rest ih =>
      obtain ⟨k, v⟩ := p
      intro acc h
      cases v with
      | vdict l' =>
          simp only [walkPass]
          exact ih _ (nodup_keys_dinsert _ _ _ h)
      | vlist xs =>
          simp only [walkPass]
          exact ih _ (nodup_keys_dinsert _ _ _ h)
      | vstr s => simp only [walkPass]; exact ih _ h
      | vint i => simp only [walkPass]; exact ih _ h
      | vbool b => simp only [walkPass]; exact ih _ h
      | vnone => simp only [walkPass]; exact ih _ h

theorem walkPass_keys_image (f : String → String) :
    ∀ (l2 acc : List (String × Value)),
      (∀ K ∈ acc.map Prod.fst, ∃ k0, K = f k0) →
      ∀ K ∈ (walkPass f l2 acc).map Prod.fst, ∃ k0, K = f k0 := by
  intro l2
  induction l2 with
  | nil => intro acc h; simpa [walkPass] using h
  | cons p rest ih =>
      obtain ⟨k, v⟩ := p
      intro acc h
      have hins : ∀ (w : Value),
          ∀ K ∈ (dinsert acc (f k) w).map Prod.fst, ∃ k0, K = f k0 := by
        intro w K hK
        rcases keys_dinsert_sub acc (f k) K w hK with h1 | h1
        · exact ⟨k, h1⟩
        · exact h K h1
      cases v with
      | vdict l' => simp only [walkPass]; exact ih _ (hins _)
      | vlist xs => simp only [walkPass]; exact ih _ (hins _)
      | vstr s => simp only [walkPass]; exact ih _ h
      | vint i => simp only [walkPass]; exact ih _ h
      | vbool b => simp only [walkPass]; exact ih _ h
      | vnone => simp only [walkPass]; exact ih _ h

/-- Invariant of the dict pass: every value looked up in the final
accumulator is a scalar or the walk image of a non-scalar value of `l`,
provided every pending pair with a non-scalar value still to be processed
is recorded in the third disjunct. -/
theorem walkPass_values (f : String → String)
    (l : List (String × Value)) :
    ∀ (l2 acc : List (String × Value)),
      (∀ p ∈ l2, p ∈ l) →
      (acc.map Prod.fst).Nodup →
      (∀ K V, dlookup acc K = some V →
        isScalar V = true
        ∨ (∃ k0 v0, (k0, v0) ∈ l ∧ isScalar v0 = false
            ∧ V = walkValue f v0)
        ∨ (∃ k1 v1, (k1, v1) ∈ l2 ∧ f k1 = K ∧ isScalar v1 = false)) →
      ∀ K V, dlookup (walkPass f l2 acc) K = some V →
        isScalar V = true
        ∨ (∃ k0 v0, (k0, v0) ∈ l ∧ isScalar v0 = false
            ∧ V = walkValue f v0) := by
  intro l2
  induction l2 with
  | nil =>
      intro acc _ _ hinv K V hV
      rcases hinv K V (by simpa [walkPass] using hV) with h | h | h
      · exact Or.inl h
      · exact Or.inr h
      · obtain ⟨k1, v1, hm, _, _⟩ := h
        simp at hm
  | cons p rest ih =>
      obtain ⟨k, v⟩ := p
      intro acc hsub hnd hinv K V hV
      have hsubr : ∀ q ∈ rest, q ∈ l :=
        fun q hq => hsub q (List.mem_cons_of_mem _ hq)
      cases v with
      | vdict l' =>
          simp only [walkPass] at hV
          refine ih _ hsubr (nodup_keys_dinsert _ _ _ hnd) ?_ K V hV
          intro K' V' hV'
          by_cases hk : K' = f k
          · subst hk
            rw [dlookup_dinsert_self] at hV'
            have : Value.vdict (walkPass f l' (walkKeysRaw f l')) = V' := by
              injection hV'
            refine Or.inr (Or.inl ⟨k, .vdict l',
              hsub (k, .vdict l') (List.mem_cons_self _ _), rfl, ?_⟩)
            rw [← this]
            rfl
          · rw [dlookup_dinsert_ne _ _ _ _ hk] at hV'
            rcases hinv K' V' hV' with h | h | h
            · exact Or.inl h
            · exact Or.inr (Or.inl h)
            · obtain ⟨k1, v1, hm, hfk, hsc⟩ := h
              rcases List.mem_cons.mp hm with he | he
              · exfalso
                have : k1 = k := congrArg Prod.fst he
                exact hk (this ▸ hfk).symm
              · exact Or.inr (Or.inr ⟨k1, v1, he, hfk, hsc⟩)
      | vlist xs =>
          simp only [walkPass] at hV
          refine ih _ hsubr (nodup_keys_dinsert _ _ _ hnd) ?_ K V hV
          intro K' V' hV'
          by_cases hk : K' = f k
          · subst hk
            rw [dlookup_dinsert_self] at hV'
            have : Value.vlist (walkList f xs) = V' := by
              injection hV'
            refine Or.inr (Or.inl ⟨k, .vlist xs,
              hsub (k, .vlist xs) (List.mem_cons_self _ _), rfl, ?_⟩)
            rw [← this]
            rfl
          · rw [dlookup_dinsert_ne _ _ _ _ hk] at hV'
            rcases hinv K' V' hV' with h | h | h
            · exact Or.inl h
            · exact Or.inr (Or.inl h)
            · obtain ⟨k1, v1, hm, hfk, hsc⟩ := h
              rcases List.mem_cons.mp hm with he | he
              · exfalso
                have : k1 = k := congrArg Prod.fst he
                exact hk (this ▸ hfk).symm
              · exact Or.inr (Or.inr ⟨k1, v1, he, hfk, hsc⟩)
      | vstr s =>
          simp only [walkPass] at hV
          refine ih _ hsubr hnd ?_ K V hV
          intro K' V' hV'
          rcases hinv K' V' hV' with h | h | h
          · exact Or.inl h
          · exact Or.inr (Or.inl h)
          · obtain ⟨k1, v1, hm, hfk, hsc⟩ := h
            rcases List.mem_cons.mp hm with he | he
            · exfalso
              have : v1 = Value.vstr s := congrArg Prod.snd he
              rw [this] at hsc
              simp [isScalar] at hsc
            · exact Or.inr (Or.inr ⟨k1, v1, he, hfk, hsc⟩)
      | vint i =>
          simp only [walkPass] at hV
          refine ih _ hsubr hnd ?_ K V hV
          intro K' V' hV'
          rcases hinv K' V' hV' with h | h | h
          · exact Or.inl h
          · exact Or.inr (Or.inl h)
          · obtain ⟨k1, v1, hm, hfk, hsc⟩ := h
            rcases List.mem_cons.mp hm with he | he
            · exfalso
              have : v1 = Value.vint i := congrArg Prod.snd he
              rw [this] at hsc
              simp [isScalar] at hsc
            · exact Or.inr (Or.inr ⟨k1, v1, he, hfk, hsc⟩)
      | vbool b =>
          simp only [walkPass] at hV
          refine ih _ hsubr hnd ?_ K V hV
          intro K' V' hV'
          rcases hinv K' V' hV' with h | h | h
          · exact Or.inl h
          · exact Or.inr (Or.inl h)
          · obtain ⟨k1, v1, hm, hfk, hsc⟩ := h
            rcases List.mem_cons.mp hm with he | he
            · exfalso
              have : v1 = Value.vbool b := congrArg Prod.snd he
              rw [this] at hsc
              simp [isScalar] at hsc
            · exact Or.inr (Or.inr ⟨k1, v1, he, hfk, hsc⟩)
      | vnone =>
          simp only [walkPass] at hV
          refine ih _ hsubr hnd ?_ K V hV
          intro K' V' hV'
          rcases hinv K' V' hV' with h | h | h
          · exact Or.inl h
          · exact Or.inr (Or.inl h)
          · obtain ⟨k1, v1, hm, hfk, hsc⟩ := h
            rcases List.mem_cons.mp hm with he | he
            · exfalso
              have : v1 = Value.vnone := congrArg Prod.snd he
              rw [this] at hsc
              simp [isScalar] at hsc
            · exact Or.inr (Or.inr ⟨k1, v1, he, hfk, hsc⟩)

/-- Running the dict pass over pairs that are already fixed by the walk
(keys fixed by `f`, values scalar or walk-fixed and already stored at
their key) leaves the accumulator unchanged. -/
theorem walkPass_fixed (f : String → String) :
    ∀ (l2 r : List (String × Value)),
      (∀ p ∈ l2, f p.1 = p.1
        ∧ (isScalar p.2 = true
            ∨ (dlookup r p.1 = some p.2 ∧ walkValue f p.2 = p.2))) →
      walkPass f l2 r = r := by
  intro l2
  induction l2 with
  | nil => intro r _; rfl
  | cons p rest ih =>
      obtain ⟨k, v⟩ := p
      intro r hyp
      have h0 := hyp (k, v) (List.mem_cons_self _ _)
      have htail : ∀ q ∈ rest, f q.1 = q.1
          ∧ (isScalar q.2 = true
              ∨ (dlookup r q.1 = some q.2 ∧ walkValue f q.2 = q.2)) :=
        fun q hq => hyp q (List.mem_cons_of_mem _ hq)
      cases v with
      | vdict l' =>
          rcases h0.2 with hsc | ⟨hlk, hwv⟩
          · simp [isScalar] at hsc
          · have hkk : f (k, Value.vdict l').1 = k := h0.1
            have heq : Value.vdict (walkPass f l' (walkKeysRaw f l'))
                = Value.vdict l' := hwv
            simp only [walkPass]
            rw [hkk, heq, dinsert_of_dlookup_eq r k (.vdict l') hlk]
            exact ih r htail
      | vlist xs =>
          rcases h0.2 with hsc | ⟨hlk, hwv⟩
          · simp [isScalar] at hsc
          · have hkk : f (k, Value.vlist xs).1 = k := h0.1
            have heq : Value.vlist (walkList f xs) = Value.vlist xs := hwv
            simp only [walkPass]
            rw [hkk, heq, dinsert_of_dlookup_eq r k (.vlist xs) hlk]
            exact ih r htail
      | vstr s => simp only [walkPass]; exact ih r htail
      | vint i => simp only [walkPass]; exact ih r htail
      | vbool b => simp only [walkPass]; exact ih r htail
      | vnone => simp only [walkPass]; exact ih r htail

theorem walkList_idem_of (f : String → String) :
    ∀ (xs : List Value),
      (∀ x ∈ xs, walkValue f (walkValue f x) = walkValue f x) →
      walkList f (walkList f xs) = walkList f xs := by
  intro xs
  induction xs with
  | nil => intro _; rfl
  | cons x rest ih =>
      intro h
      simp only [walkList]
      rw [h x (List.mem_cons_self _ _),
        ih (fun y hy => h y (List.mem_cons_of_mem _ hy))]

theorem walk_idem_aux (f : String → String) (hf : ∀ s, f (f s) = f s) :
    ∀ (n : Nat) (x : Value), sizeOf x ≤ n →
      walkValue f (walkValue f x) = walkValue f x := by
  intro n
  induction n with
  | zero =>
      intro x hx
      exfalso
      cases x <;> simp at hx
  | succ n ihn =>
      intro x hx
      cases x with
      | vstr s => simp [walkValue, hf]
      | vint i => rfl
      | vbool b => rfl
      | vnone => rfl
      | vlist xs =>
          simp only [walkValue]
          congr 1
          apply walkList_idem_of
          intro y hy
          apply ihn
          have h1 := List.sizeOf_lt_of_mem hy
          have h2 : sizeOf (Value.vlist xs) = 1 + sizeOf xs := by
            simp
          omega
      | vdict l =>
          have hsize : ∀ v0 : Value, (∃ k0, (k0, v0) ∈ l) → sizeOf v0 ≤ n := by
            rintro v0 ⟨k0, hm⟩
            have h1 := List.sizeOf_lt_of_mem hm
            have h2 : sizeOf (Value.vdict l) = 1 + sizeOf l := by simp
            have h3 : sizeOf (k0, v0) = 1 + sizeOf k0 + sizeOf v0 := by simp
            omega
          simp only [walkValue]
          congr 1
          set r := walkPass f l (walkKeysRaw f l) with hrdef
          have hnd : (r.map Prod.fst).Nodup :=
            walkPass_keys_nodup f l (walkKeysRaw f l) (walkKeysRaw_nodup f l)
          have himg : ∀ K ∈ r.map Prod.fst, ∃ k0, K = f k0 :=
            walkPass_keys_image f l (walkKeysRaw f l)
              (walkKeysRaw_keys_image f l)
          have hvals : ∀ K V, dlookup r K = some V →
              isScalar V = true
              ∨ (∃ k0 v0, (k0, v0) ∈ l ∧ isScalar v0 = false
                  ∧ V = walkValue f v0) := by
            apply walkPass_values f l l (walkKeysRaw f l)
              (fun p hp => hp) (walkKeysRaw_nodup f l)
            intro K V hV
            obtain ⟨k0, hm, hfk⟩ := walkKeysRaw_values f l K V hV
            by_cases hsc : isScalar V = true
            · exact Or.inl hsc
            · exact Or.inr (Or.inr ⟨k0, V, hm, hfk,
                Bool.eq_false_iff.mpr (fun he => hsc he) ▸ rfl⟩)
          have hkeyfix : ∀ p ∈ r, f p.1 = p.1 := by
            intro p hp
            obtain ⟨k0, hk0⟩ := himg p.1 (List.mem_map_of_mem Prod.fst hp)
            rw [hk0, hf]
          have hB : walkKeysRaw f r = r := by
            have := foldl_dinsert_fixed f r [] hkeyfix (by simpa using hnd)
            simpa [walkKeysRaw] using this
          rw [hB]
          apply walkPass_fixed
          intro p hp
          refine ⟨hkeyfix p hp, ?_⟩
          by_cases hsc : isScalar p.2 = true
          · exact Or.inl hsc
          · have hlk : dlookup r p.1 = some p.2 :=
              dlookup_eq_some_of_mem_nodup r p hnd hp
            refine Or.inr ⟨hlk, ?_⟩
            rcases hvals p.1 p.2 hlk with h | h
            · exact absurd h hsc
            · obtain ⟨k0, v0, hm, _, hV⟩ := h
              rw [hV, ihn v0 (hsize v0 ⟨k0, hm⟩)]

/-- Claim C8: normalization is idempotent for idempotent key functions —
for every `f` with `f (f s) = f s` and every input `x`,
`walk_recursive(f, walk_recursive(f, x)) = walk_recursive(f, x)`. -/
theorem c8_normalize_idempotent (f : String → String)
    (hf : ∀ s, f (f s) = f s) (x : Value) :
    walkValue f (walkValue f x) = walkValue f x :=
  walk_idem_aux f hf (sizeOf x) x (Nat.le_refl _)

theorem c8_normalize_idempotent_witness :
    walkValue (fun _ => "c") (walkValue (fun _ => "c")
        (.vdict [("A", .vdict [("B", .vint 1)]), ("a", .vlist [.vstr "z"])]))
      = walkValue (fun _ => "c")
          (.vdict [("A", .vdict [("B", .vint 1)]),
            ("a", .vlist [.vstr "z"])]) :=
  c8_normalize_idempotent (fun _ => "c") (fun _ => rfl) _
